import Mathlib

/-!
Verification of `face/middleware.py` (the face middleware subsystem).

The file embeds, as Lean functions over explicit data:

* `check_middleware` — signature validation of a middleware declaration
  (`src/face/middleware.py`, lines 266-297);
* `face_middleware` — the decorator, in particular its normalisation of the
  `provides` argument and the attributes it records on the decorated function
  (lines 174-213);
* `resolve_middleware_chain` / `get_middleware_chain` — chain resolution and
  its error behaviour (lines 216-263).

The resolution core `make_chain` and the introspection helpers
(`get_arg_names`, `getargspec`) are imported by the source from
`face.sinter`, a module of this repository that is not available here; those
parts are modelled from the specification (its §4.2 Chain Resolver pseudocode
and §4.3 Chain Builder) and are marked `Modelled from the spec:` below.

A Python callable's signature is represented by the fields `getargspec`
exposes and the source consults: the ordered list of explicit positional
parameter names, whether a catch-all positional (`*args`) or catch-all
keyword (`**kwargs`) parameter is present, plus callability of the object.
-/

/-- `INNER_NAME = 'next_'`: the reserved continuation parameter name. -/
def INNER_NAME : String := "next_"

/-- `_BUILTIN_PROVIDES`: the reserved builtin injectable names, including the
continuation name itself. -/
def BUILTIN_PROVIDES : List String :=
  [INNER_NAME, "args_", "cmd_", "subcmds_",
   "flags_", "posargs_", "post_posargs_",
   "command_"]

/-- The view of a candidate middleware callable that `check_middleware`
consults: callability, `getargspec(func).args` (explicit positional parameter
names, in order), and the presence of `*args` / `**kwargs` catch-alls. -/
structure FuncDecl where
  callable : Bool
  args : List String
  varargs : Bool
  keywords : Bool
deriving DecidableEq

/-- The distinct failure modes of `check_middleware` (the source raises
`TypeError` with a distinct message for each). -/
inductive CheckError where
  | notCallable : CheckError
  | noArgs : CheckError
  | firstArgNotInner : String → CheckError
  | hasVarargs : CheckError
  | hasKeywords : CheckError
  | providesConflict : List String → CheckError
deriving DecidableEq

/-- Which failure modes are malformed-signature errors, as opposed to the
reserved-name conflict on `provides`. -/
def CheckError.isSignatureError : CheckError → Bool
  | .providesConflict _ => false
  | _ => true

/-- `check_middleware(func, provides)`: callability check, then first
parameter must be `INNER_NAME`, then no `*args`, then no `**kwargs`, then
`provides` must not intersect `_BUILTIN_PROVIDES`.  The checks run in exactly
the source's order; each failure raises immediately. -/
def check_middleware (func : FuncDecl) (provides : List String) :
    Except CheckError Unit :=
  if func.callable = false then .error .notCallable
  else
    match func.args with
    | [] => .error .noArgs
    | a0 :: _ =>
      if a0 ≠ INNER_NAME then .error (.firstArgNotInner a0)
      else if func.varargs then .error .hasVarargs
      else if func.keywords then .error .hasKeywords
      else
        let conflict_args := BUILTIN_PROVIDES.filter (fun n => decide (n ∈ provides))
        if conflict_args ≠ [] then .error (.providesConflict conflict_args)
        else .ok ()

/-- Modelled from the spec: validation of a terminal (innermost) declaration.
The terminal-side validator is not under `src/` (the source's innermost
handlers are checked by callers through `face.sinter` helpers); per the spec,
open-ended variadic capture is disallowed for any provider **or terminal**,
and the declaration must be invocable.  A terminal has no continuation-first
requirement. -/
def check_terminal (func : FuncDecl) : Except CheckError Unit :=
  if func.callable = false then .error .notCallable
  else if func.varargs then .error .hasVarargs
  else if func.keywords then .error .hasKeywords
  else .ok ()

/-- The `provides` argument of the `face_middleware` decorator: either a bare
string or a list of names. -/
inductive ProvidesArg where
  | ofString : String → ProvidesArg
  | ofList : List String → ProvidesArg
deriving DecidableEq

/-- Lines 190-192 of the source: a bare string `provides` is wrapped into a
one-element list; a list is taken as-is. -/
def normalizeProvides : ProvidesArg → List String
  | .ofString s => [s]
  | .ofList l => l

/-- The attributes `decorate_face_middleware` records on the decorated
function (lines 202-208 of the source). -/
structure DecoratedMiddleware where
  func : FuncDecl
  is_face_middleware : Bool
  face_provides : List String
  face_optional : Bool
deriving DecidableEq

/-- `face_middleware(provides=..., optional=...)` applied to `func`:
normalise `provides`, run `check_middleware`, and on success record the
middleware attributes.  (The `flags` argument only type-checks its elements
and is orthogonal to the recorded provides; it is omitted.) -/
def face_middleware (func : FuncDecl) (providesArg : ProvidesArg)
    (optional : Bool) : Except CheckError DecoratedMiddleware :=
  let provides := normalizeProvides providesArg
  match check_middleware func provides with
  | .error e => .error e
  | .ok _ => .ok ⟨func, true, provides, optional⟩

/-- A resolved view of one chain member, as the spec's §3 ProviderSpec:
required names (parameters without defaults, continuation excluded), optional
names (parameters with defaults), and the declared provides list. -/
structure ProviderSpec where
  requiredNames : Finset String
  optionalNames : Finset String
  providesNames : List String
deriving DecidableEq

instance : Inhabited ProviderSpec := ⟨⟨∅, ∅, []⟩⟩

/-- The declared argument names of a member (`get_arg_names`): its required
and optional names together. -/
def ProviderSpec.argNames (p : ProviderSpec) : Finset String :=
  p.requiredNames ∪ p.optionalNames

/-- Modelled from the spec: the single left-to-right pass of the Chain
Resolver (§4.2), the core of `face.sinter.make_chain`, which is not under
`src/`.  Starting from the availability set `avail`, each member contributes
`requiredNames − available` to the unresolved set, receives
`(requiredNames ∪ optionalNames) ∩ available` as its argument subset, and
extends the availability set by its `providesNames`.  (The spec guards the
extension with "if p is not terminal"; the terminal is the last member, so
extending after it is unobservable and the loop is uniform.) -/
def make_chain_go (avail : Finset String) :
    List ProviderSpec → List (Finset String) × Finset String
  | [] => ([], ∅)
  | p :: rest =>
    let res := make_chain_go (avail ∪ p.providesNames.toFinset) rest
    (((p.requiredNames ∪ p.optionalNames) ∩ avail) :: res.1,
     (p.requiredNames \ avail) ∪ res.2)

/-- Modelled from the spec: `face.sinter.make_chain` applied to the members
`middlewares ++ [innermost]` with initial availability `avail`.  Returns the
per-member argument subsets (the binding plan of the tentative chain) and the
set of unresolved required names. -/
def make_chain (middlewares : List ProviderSpec) (innermost : ProviderSpec)
    (avail : Finset String) : List (Finset String) × Finset String :=
  make_chain_go avail (middlewares ++ [innermost])

/-- `resolve_middleware_chain` (lines 216-228 of the source): the continuation
name is removed from the preprovided names (`mw_avail = set(preprovided) -
set([INNER_NAME])`) and `make_chain` is invoked. -/
def resolve_middleware_chain (middlewares : List ProviderSpec)
    (innermost : ProviderSpec) (preprovided : Finset String) :
    List (Finset String) × Finset String :=
  make_chain middlewares innermost (preprovided \ {INNER_NAME})

/-- The failure modes of `get_middleware_chain` (the source raises `NameError`
with a distinct message for each). -/
inductive ChainError where
  | innerReserved : ChainError
  | unresolvedArgs : List String → ChainError
deriving DecidableEq

/-- `get_middleware_chain` (lines 231-263 of the source): reject an innermost
function that itself declares `INNER_NAME`; resolve; if any unresolved names
remain raise carrying `sorted(mw_unres)`; otherwise return the chain (here:
its binding plan). -/
def get_middleware_chain (middlewares : List ProviderSpec)
    (innermost : ProviderSpec) (preprovided : Finset String) :
    Except ChainError (List (Finset String)) :=
  if INNER_NAME ∈ innermost.argNames then .error .innerReserved
  else
    let res := resolve_middleware_chain middlewares innermost preprovided
    if res.2 ≠ ∅ then .error (.unresolvedArgs (res.2.sort (· ≤ ·)))
    else .ok res.1

/-- The availability set just before member `i` of the member list, starting
from `avail`: the loop of `make_chain_go` after `i` steps. -/
def availableAt (avail : Finset String) :
    List ProviderSpec → Nat → Finset String
  | _, 0 => avail
  | [], _ + 1 => avail
  | p :: rest, i + 1 => availableAt (avail ∪ p.providesNames.toFinset) rest i

/-- The union of the provides of the first `i` members. -/
def providedBefore (ms : List ProviderSpec) (i : Nat) : Finset String :=
  (ms.take i).foldr (fun p acc => p.providesNames.toFinset ∪ acc) ∅

/-- Member `m` with its request for `X` turned from optional (defaulted) into
required (no default); everything else, in particular `providesNames`,
unchanged. -/
def strengthen (m : ProviderSpec) (X : String) : ProviderSpec :=
  { m with requiredNames := insert X m.requiredNames,
           optionalNames := m.optionalNames.erase X }

/-- Modelled from the spec: a provider body in a composed chain, for the
invocation-order contract of §4.3.  Invoking it emits its pre marker; if it
invokes its continuation (exactly once) it splices in the continuation's
trace and passes its result through, otherwise the continuation never runs
and its own return value `ownRet` becomes the result; either way its post
marker follows. -/
def mkProvider (name : String) (callsNext : Bool) (ownRet : Int)
    (next : Unit → List String × Int) : List String × Int :=
  if callsNext then
    let r := next ()
    ((name ++ "-pre") :: r.1 ++ [name ++ "-post"], r.2)
  else
    ([name ++ "-pre", name ++ "-post"], ownRet)

/-- Modelled from the spec: the Chain Builder `compose` (§4.3), built
right-to-left — the bound terminal seeds `next`, and each provider from the
innermost to the outermost is bound over the previous `next`; the
outward-most bound callable is the composed chain.  Invocation yields the
trace of side-effect markers and the overall result. -/
def compose (providers : List ((Unit → List String × Int) → List String × Int))
    (boundTerminal : List String × Int) : List String × Int :=
  providers.foldr (fun p acc => p (fun _ => acc)) boundTerminal

/-- Concrete declarations used to instantiate the theorems below. -/
def funcOk : FuncDecl := ⟨true, [INNER_NAME], false, false⟩

def funcVariadic : FuncDecl := ⟨true, [INNER_NAME], true, false⟩

def funcNoInner : FuncDecl := ⟨true, ["spam"], false, false⟩

def decoratedSample : DecoratedMiddleware := ⟨funcOk, true, ["start_time"], false⟩

def mwOptX : ProviderSpec := ⟨∅, {"x"}, []⟩

def mwReqStart : ProviderSpec := ⟨{"start_time"}, ∅, []⟩

def termTriv : ProviderSpec := ⟨∅, ∅, []⟩

def termNextArg : ProviderSpec := ⟨{INNER_NAME}, ∅, []⟩

/-- The argument-subset list produced by the resolver pass has no member
containing `X` whenever `X` is outside the initial availability set and no
member provides it: subsets only ever draw from the availability set. -/
theorem not_mem_argSubsets (X : String) (avail : Finset String)
    (ms : List ProviderSpec) (hX : X ∉ avail)
    (hprov : ∀ p ∈ ms, X ∉ p.providesNames) :
    ∀ s ∈ (make_chain_go avail ms).1, X ∉ s := by
  induction ms generalizing avail with
  | nil => intro s hs; simp [make_chain_go] at hs
  | cons p rest ih =>
    intro s hs
    simp only [make_chain_go, List.mem_cons] at hs
    rcases hs with h | h
    · subst h
      simp only [Finset.mem_inter, not_and]
      intro _
      exact hX
    · have hXu : X ∉ avail ∪ p.providesNames.toFinset := by
        simp only [Finset.mem_union, List.mem_toFinset]
        rintro (h1 | h2)
        · exact hX h1
        · exact hprov p (List.mem_cons_self p rest) h2
      exact ih (avail ∪ p.providesNames.toFinset) hXu
        (fun q hq => hprov q (List.mem_cons_of_mem _ hq)) s h

/-- Turning one member's optional request for `X` into a required one adds
exactly `X` to the unresolved set, provided `X` is not available at that
member's position (not in the initial availability set and not provided by
any earlier member). -/
theorem unresolved_strengthen (X : String) (avail : Finset String)
    (ms1 ms2 : List ProviderSpec) (m : ProviderSpec)
    (hX : X ∉ avail) (hprov : ∀ p ∈ ms1, X ∉ p.providesNames) :
    (make_chain_go avail (ms1 ++ strengthen m X :: ms2)).2
      = insert X (make_chain_go avail (ms1 ++ m :: ms2)).2 := by
  induction ms1 generalizing avail with
  | nil =>
    simp only [List.nil_append, make_chain_go, strengthen]
    rw [Finset.insert_sdiff_of_not_mem _ hX, Finset.insert_union]
  | cons p rest ih =>
    have hXu : X ∉ avail ∪ p.providesNames.toFinset := by
      simp only [Finset.mem_union, List.mem_toFinset]
      rintro (h1 | h2)
      · exact hX h1
      · exact hprov p (List.mem_cons_self p rest) h2
    simp only [List.cons_append, make_chain_go, List.append_eq]
    rw [ih (avail ∪ p.providesNames.toFinset) hXu
        (fun q hq => hprov q (List.mem_cons_of_mem _ hq)),
      Finset.union_insert]

/-- The argument subset at position `i` is the member's declared names
intersected with the availability set at `i`. -/
theorem argSubsets_getD (ms : List ProviderSpec) (avail : Finset String)
    (i : Nat) (hi : i < ms.length) :
    ((make_chain_go avail ms).1).getD i ∅
      = ((ms.getD i default).argNames) ∩ availableAt avail ms i := by
  induction ms generalizing avail i with
  | nil => simp at hi
  | cons p rest ih =>
    cases i with
    | zero => simp [make_chain_go, availableAt, ProviderSpec.argNames]
    | succ j =>
      simp only [make_chain_go, List.getD_cons_succ]
      exact ih _ j (by simpa using hi)

/-- The availability set never shrinks along the pass. -/
theorem availableAt_mono (ms : List ProviderSpec) (avail : Finset String)
    (i : Nat) :
    availableAt avail ms i ⊆ availableAt avail ms (i + 1) := by
  induction ms generalizing avail i with
  | nil => cases i <;> simp [availableAt]
  | cons p rest ih =>
    cases i with
    | zero =>
      simp only [availableAt]
      exact Finset.subset_union_left
    | succ j =>
      simp only [availableAt]
      exact ih _ j

/-- The availability set at position `i` is the initial set united with the
provides of the members strictly before `i`. -/
theorem availableAt_eq (ms : List ProviderSpec) (avail : Finset String)
    (i : Nat) :
    availableAt avail ms i = avail ∪ providedBefore ms i := by
  induction ms generalizing avail i with
  | nil => cases i <;> simp [availableAt, providedBefore]
  | cons p rest ih =>
    cases i with
    | zero => simp [availableAt, providedBefore]
    | succ j =>
      show availableAt (avail ∪ p.providesNames.toFinset) rest j = _
      rw [ih]
      simp [providedBefore, Finset.union_assoc]

/-- Splitting a union over `Finset.range (n + 1)` into its first index and
the rest. -/
theorem finsetBiUnion_range_succ (n : Nat) (f : Nat → Finset String) :
    (Finset.range (n + 1)).biUnion f
      = f 0 ∪ (Finset.range n).biUnion (fun i => f (i + 1)) := by
  ext a
  simp only [Finset.mem_biUnion, Finset.mem_range, Finset.mem_union]
  constructor
  · rintro ⟨i, hi, ha⟩
    cases i with
    | zero => exact Or.inl ha
    | succ j => exact Or.inr ⟨j, by omega, ha⟩
  · rintro (h | ⟨j, hj, ha⟩)
    · exact ⟨0, by omega, h⟩
    · exact ⟨j + 1, by omega, ha⟩

/-- The unresolved set of the pass is the union, over every position, of that
member's required names minus the availability set at its position: a missing
name at one member never stops collection at the others. -/
theorem unresolved_eq_biUnion (ms : List ProviderSpec) (avail : Finset String) :
    (make_chain_go avail ms).2
      = (Finset.range ms.length).biUnion
          (fun i => (ms.getD i default).requiredNames \ availableAt avail ms i) := by
  induction ms generalizing avail with
  | nil => simp [make_chain_go]
  | cons p rest ih =>
    simp only [make_chain_go, List.length_cons]
    rw [ih, finsetBiUnion_range_succ]
    rfl

/-- Claim C1: a member requesting `X` as an optional parameter resolves even
when `X` is absent from the preprovided names and from every member's
provides; `X` is then omitted from the argument subsets (the member falls
back to its own default), while the identical chain with `X` requested as a
required parameter fails with unresolved names exactly `{X}`. -/
theorem c1_weak_vs_strong_dependency (ms1 ms2 : List ProviderSpec)
    (m innermost : ProviderSpec) (X : String) (pre : Finset String)
    (_hopt : X ∈ m.optionalNames)
    (hpre : X ∉ pre)
    (hprov : ∀ p ∈ ms1 ++ m :: (ms2 ++ [innermost]), X ∉ p.providesNames)
    (hsucc : (resolve_middleware_chain (ms1 ++ m :: ms2) innermost pre).2 = ∅) :
    (∀ s ∈ (resolve_middleware_chain (ms1 ++ m :: ms2) innermost pre).1, X ∉ s)
      ∧ (resolve_middleware_chain (ms1 ++ strengthen m X :: ms2) innermost pre).2
          = {X} := by
  have hXa : X ∉ pre \ ({INNER_NAME} : Finset String) := by
    intro h
    exact hpre (Finset.mem_sdiff.mp h).1
  have hshape : (ms1 ++ m :: ms2) ++ [innermost]
      = ms1 ++ m :: (ms2 ++ [innermost]) := by simp
  have hshape2 : (ms1 ++ strengthen m X :: ms2) ++ [innermost]
      = ms1 ++ strengthen m X :: (ms2 ++ [innermost]) := by simp
  constructor
  · intro s hs
    refine not_mem_argSubsets X _ (ms1 ++ m :: (ms2 ++ [innermost])) hXa hprov s ?_
    unfold resolve_middleware_chain make_chain at hs
    rwa [hshape] at hs
  · unfold resolve_middleware_chain make_chain at hsucc ⊢
    rw [hshape2, unresolved_strengthen X _ ms1 (ms2 ++ [innermost]) m hXa
      (fun p hp => hprov p (List.mem_append_left _ hp)), ← hshape, hsucc]
    rfl

/-- Witness for C1 at a one-middleware chain requesting `x` optionally. -/
theorem c1_witness :
    (∀ s ∈ (resolve_middleware_chain [mwOptX] termTriv ∅).1, "x" ∉ s)
      ∧ (resolve_middleware_chain [strengthen mwOptX "x"] termTriv ∅).2
          = {"x"} :=
  c1_weak_vs_strong_dependency [] [] mwOptX termTriv "x" ∅ (by decide) (by decide)
    (by decide) (by decide)

/-- Claim C2: the pass collects every member's missing required names (a
miss never stops the pass — the unresolved set is the union over all
positions), `get_middleware_chain` succeeds exactly when that collected set
is empty, and on failure it raises a single error carrying the sorted,
de-duplicated list of every unresolved name, returning no chain. -/
theorem c2_fail_fast_collects_all (mws : List ProviderSpec)
    (innermost : ProviderSpec) (pre : Finset String)
    (hinner : INNER_NAME ∉ innermost.argNames) :
    (resolve_middleware_chain mws innermost pre).2
        = (Finset.range (mws ++ [innermost]).length).biUnion
            (fun i => ((mws ++ [innermost]).getD i default).requiredNames
              \ availableAt (pre \ {INNER_NAME}) (mws ++ [innermost]) i)
      ∧ ((resolve_middleware_chain mws innermost pre).2 = ∅ ↔
          get_middleware_chain mws innermost pre
            = .ok (resolve_middleware_chain mws innermost pre).1)
      ∧ ((resolve_middleware_chain mws innermost pre).2 ≠ ∅ →
          ∃ l, get_middleware_chain mws innermost pre
                = .error (.unresolvedArgs l)
            ∧ l.Sorted (· ≤ ·) ∧ l.Nodup
            ∧ l.toFinset = (resolve_middleware_chain mws innermost pre).2) := by
  refine ⟨?_, ?_, ?_⟩
  · unfold resolve_middleware_chain make_chain
    exact unresolved_eq_biUnion _ _
  · constructor
    · intro h
      unfold get_middleware_chain
      simp [hinner, h]
    · intro h
      by_cases hu : (resolve_middleware_chain mws innermost pre).2 = ∅
      · exact hu
      · unfold get_middleware_chain at h
        simp [hinner, hu] at h
  · intro hne
    refine ⟨(resolve_middleware_chain mws innermost pre).2.sort (· ≤ ·),
      ?_, Finset.sort_sorted _ _, Finset.sort_nodup _ _, Finset.sort_toFinset _ _⟩
    unfold get_middleware_chain
    simp [hinner, hne]

/-- Witness for C2 at the empty middleware list over a trivial terminal. -/
theorem c2_witness :
    (resolve_middleware_chain [] termTriv ∅).2
        = (Finset.range ([termTriv] : List ProviderSpec).length).biUnion
            (fun i => (([termTriv] : List ProviderSpec).getD i default).requiredNames
              \ availableAt ((∅ : Finset String) \ {INNER_NAME}) [termTriv] i)
      ∧ ((resolve_middleware_chain [] termTriv ∅).2 = ∅ ↔
          get_middleware_chain [] termTriv ∅
            = .ok (resolve_middleware_chain [] termTriv ∅).1)
      ∧ ((resolve_middleware_chain [] termTriv ∅).2 ≠ ∅ →
          ∃ l, get_middleware_chain [] termTriv ∅
                = .error (.unresolvedArgs l)
            ∧ l.Sorted (· ≤ ·) ∧ l.Nodup
            ∧ l.toFinset = (resolve_middleware_chain [] termTriv ∅).2) :=
  c2_fail_fast_collects_all [] termTriv ∅ (by decide)

/-- Claim C3: the availability set at position `i` equals the preprovided
names (continuation excluded) united with the provides of the members
strictly before `i`; hence it is monotonically non-decreasing in `i`, and a
member's argument subset is its declared names intersected with exactly that
set — only names produced strictly outward of it. -/
theorem c3_availability_monotonic (mws : List ProviderSpec)
    (innermost : ProviderSpec) (pre : Finset String) (i : Nat)
    (hi : i < (mws ++ [innermost]).length) :
    availableAt (pre \ {INNER_NAME}) (mws ++ [innermost]) i
        = (pre \ {INNER_NAME}) ∪ providedBefore (mws ++ [innermost]) i
      ∧ availableAt (pre \ {INNER_NAME}) (mws ++ [innermost]) i
          ⊆ availableAt (pre \ {INNER_NAME}) (mws ++ [innermost]) (i + 1)
      ∧ (resolve_middleware_chain mws innermost pre).1.getD i ∅
          = ((mws ++ [innermost]).getD i default).argNames
              ∩ availableAt (pre \ {INNER_NAME}) (mws ++ [innermost]) i := by
  refine ⟨availableAt_eq _ _ _, availableAt_mono _ _ _, ?_⟩
  unfold resolve_middleware_chain make_chain
  exact argSubsets_getD _ _ i hi

/-- Witness for C3 at position 0 of a one-middleware chain. -/
theorem c3_witness :
    availableAt ((∅ : Finset String) \ {INNER_NAME}) [mwOptX, termTriv] 0
        = ((∅ : Finset String) \ {INNER_NAME})
            ∪ providedBefore [mwOptX, termTriv] 0
      ∧ availableAt ((∅ : Finset String) \ {INNER_NAME}) [mwOptX, termTriv] 0
          ⊆ availableAt ((∅ : Finset String) \ {INNER_NAME}) [mwOptX, termTriv] 1
      ∧ (resolve_middleware_chain [mwOptX] termTriv ∅).1.getD 0 ∅
          = (([mwOptX, termTriv] : List ProviderSpec).getD 0 default).argNames
              ∩ availableAt ((∅ : Finset String) \ {INNER_NAME}) [mwOptX, termTriv] 0 :=
  c3_availability_monotonic [mwOptX] termTriv ∅ 0 (by decide)

/-- Claim C4: the continuation name is removed from the preprovided names
before the pass and no member ever provides it, so it never appears in any
member's argument subset; an innermost function declaring the continuation
name among its parameters is rejected before any resolution result is
returned. -/
theorem c4_continuation_excluded (mws : List ProviderSpec)
    (innermost : ProviderSpec) (pre : Finset String)
    (hprov : ∀ p ∈ mws ++ [innermost], INNER_NAME ∉ p.providesNames) :
    (∀ s ∈ (resolve_middleware_chain mws innermost pre).1, INNER_NAME ∉ s)
      ∧ (INNER_NAME ∈ innermost.argNames →
          get_middleware_chain mws innermost pre = .error .innerReserved) := by
  constructor
  · intro s hs
    refine not_mem_argSubsets INNER_NAME _ _ ?_ hprov s hs
    simp [Finset.mem_sdiff]
  · intro h
    unfold get_middleware_chain
    simp [h]

/-- Witness for C4 with an innermost function declaring `next_`. -/
theorem c4_witness :
    (∀ s ∈ (resolve_middleware_chain [] termNextArg ∅).1, INNER_NAME ∉ s)
      ∧ (INNER_NAME ∈ termNextArg.argNames →
          get_middleware_chain [] termNextArg ∅ = .error .innerReserved) :=
  c4_continuation_excluded [] termNextArg ∅ (by decide)

/-- Claim C5: for a composed chain `[A, B, terminal]` where both providers
invoke their continuation exactly once, invocation yields the side-effect
order A-pre, B-pre, terminal, B-post, A-post with the terminal's result; if
instead B never invokes its continuation, the terminal never runs, B's own
return value becomes the overall result, and the order is A-pre, B-pre,
B-post, A-post. -/
theorem c5_invocation_order_and_short_circuit (a b t : String) (ra rb rt : Int) :
    compose [mkProvider a true ra, mkProvider b true rb] ([t], rt)
        = ([a ++ "-pre", b ++ "-pre", t, b ++ "-post", a ++ "-post"], rt)
      ∧ compose [mkProvider a true ra, mkProvider b false rb] ([t], rt)
        = ([a ++ "-pre", b ++ "-pre", b ++ "-post", a ++ "-post"], rb) :=
  ⟨rfl, rfl⟩

/-- Claim C6: any declaration with a catch-all positional (`*args`) or
catch-all keyword (`**kwargs`) parameter is rejected with a signature error,
both as a middleware provider and as a terminal. -/
theorem c6_variadic_rejected (func : FuncDecl) (provides : List String)
    (h : func.varargs = true ∨ func.keywords = true) :
    (∃ e, check_middleware func provides = .error e ∧ e.isSignatureError = true)
      ∧ (∃ e, check_terminal func = .error e ∧ e.isSignatureError = true) := by
  constructor
  · by_cases hc : func.callable = false
    · exact ⟨.notCallable, by simp [check_middleware, hc], rfl⟩
    · have hc2 : func.callable = true := by simpa using hc
      cases ha : func.args with
      | nil => exact ⟨.noArgs, by simp [check_middleware, hc2, ha], rfl⟩
      | cons a0 rest =>
        by_cases h0 : a0 = INNER_NAME
        · by_cases hv : func.varargs = true
          · exact ⟨.hasVarargs, by simp [check_middleware, hc2, ha, h0, hv], rfl⟩
          · have hk : func.keywords = true := by
              rcases h with h | h
              · exact absurd h hv
              · exact h
            exact ⟨.hasKeywords, by simp [check_middleware, hc2, ha, h0, hv, hk], rfl⟩
        · exact ⟨.firstArgNotInner a0, by simp [check_middleware, hc2, ha, h0], rfl⟩
  · by_cases hc : func.callable = false
    · exact ⟨.notCallable, by simp [check_terminal, hc], rfl⟩
    · have hc2 : func.callable = true := by simpa using hc
      by_cases hv : func.varargs = true
      · exact ⟨.hasVarargs, by simp [check_terminal, hc2, hv], rfl⟩
      · have hk : func.keywords = true := by
          rcases h with h | h
          · exact absurd h hv
          · exact h
        exact ⟨.hasKeywords, by simp [check_terminal, hc2, hv, hk], rfl⟩

/-- Witness for C6 at a declaration with a catch-all positional parameter. -/
theorem c6_witness :
    (∃ e, check_middleware funcVariadic ["start_time"] = .error e
        ∧ e.isSignatureError = true)
      ∧ (∃ e, check_terminal funcVariadic = .error e
          ∧ e.isSignatureError = true) :=
  c6_variadic_rejected funcVariadic ["start_time"] (Or.inl rfl)

/-- Claim C7: a non-terminal provider declaration passes validation only if
it is callable and its first explicit named parameter is exactly the reserved
continuation name; otherwise (not callable, no named parameters, misnamed
first parameter, or the continuation name in non-first position)
`check_middleware` rejects it with a signature error at registration time. -/
theorem c7_continuation_first (func : FuncDecl) (provides : List String)
    (h : ¬(func.callable = true ∧ func.args.head? = some INNER_NAME)) :
    ∃ e, check_middleware func provides = .error e ∧ e.isSignatureError = true := by
  by_cases hc : func.callable = false
  · exact ⟨.notCallable, by simp [check_middleware, hc], rfl⟩
  · have hc2 : func.callable = true := by simpa using hc
    cases ha : func.args with
    | nil => exact ⟨.noArgs, by simp [check_middleware, hc2, ha], rfl⟩
    | cons a0 rest =>
      have h0 : a0 ≠ INNER_NAME := by
        intro he
        exact h ⟨hc2, by simp [ha, he]⟩
      exact ⟨.firstArgNotInner a0, by simp [check_middleware, hc2, ha, h0], rfl⟩

/-- Witness for C7 at a declaration whose first parameter is not `next_`. -/
theorem c7_witness :
    ∃ e, check_middleware funcNoInner [] = .error e ∧ e.isSignatureError = true :=
  c7_continuation_first funcNoInner [] (by decide)

/-- Claim C8: a provider declaration (with an otherwise valid signature)
whose provides list intersects the reserved builtin names fails registration
with the name-conflict failure mode, carrying the non-empty set of
conflicting names — before any resolution is attempted. -/
theorem c8_reserved_provides_conflict (func : FuncDecl) (provides : List String)
    (hcall : func.callable = true) (hfirst : func.args.head? = some INNER_NAME)
    (hva : func.varargs = false) (hkw : func.keywords = false)
    (hconf : ∃ n, n ∈ provides ∧ n ∈ BUILTIN_PROVIDES) :
    ∃ ns, check_middleware func provides = .error (.providesConflict ns)
      ∧ ns ≠ [] ∧ ∀ n ∈ ns, n ∈ provides ∧ n ∈ BUILTIN_PROVIDES := by
  obtain ⟨n, hn1, hn2⟩ := hconf
  have hmem : n ∈ BUILTIN_PROVIDES.filter (fun x => decide (x ∈ provides)) :=
    List.mem_filter.mpr ⟨hn2, by simpa using hn1⟩
  have hne : BUILTIN_PROVIDES.filter (fun x => decide (x ∈ provides)) ≠ [] :=
    List.ne_nil_of_mem hmem
  cases ha : func.args with
  | nil =>
    rw [ha] at hfirst
    exact absurd hfirst (by simp)
  | cons a0 rest =>
    have h0 : a0 = INNER_NAME := by
      rw [ha] at hfirst
      simpa using hfirst
    refine ⟨_, ?_, hne, ?_⟩
    · simp [check_middleware, hcall, ha, h0, hva, hkw, hne]
    · intro x hx
      rcases List.mem_filter.mp hx with ⟨hb, hp⟩
      exact ⟨by simpa using hp, hb⟩

/-- Witness for C8 at a well-formed declaration providing the reserved name
`cmd_`. -/
theorem c8_witness :
    ∃ ns, check_middleware funcOk ["cmd_"] = .error (.providesConflict ns)
      ∧ ns ≠ [] ∧ ∀ n ∈ ns, n ∈ ["cmd_"] ∧ n ∈ BUILTIN_PROVIDES :=
  c8_reserved_provides_conflict funcOk ["cmd_"] rfl rfl rfl rfl
    ⟨"cmd_", by decide, by decide⟩

/-- Claim C9: resolution is deterministic — two runs on equal inputs (same
ordered middlewares, same innermost, same preprovided names) produce equal
argument-subset plans and equal unresolved sets. -/
theorem c9_resolution_deterministic (mws mws2 : List ProviderSpec)
    (innermost innermost2 : ProviderSpec) (pre pre2 : Finset String)
    (h1 : mws = mws2) (h2 : innermost = innermost2) (h3 : pre = pre2) :
    resolve_middleware_chain mws innermost pre
      = resolve_middleware_chain mws2 innermost2 pre2 := by
  rw [h1, h2, h3]

/-- Witness for C9 at a concrete chain. -/
theorem c9_witness :
    resolve_middleware_chain [mwOptX] termTriv ∅
      = resolve_middleware_chain [mwOptX] termTriv ∅ :=
  c9_resolution_deterministic [mwOptX] [mwOptX] termTriv termTriv ∅ ∅
    rfl rfl rfl

/-- Claim C10: when the `face_middleware` decorator is given a bare string
`s` as `provides`, the decorated function's recorded provides list is the
one-element list `[s]` — the string is never iterated character by
character. -/
theorem c10_string_provides_normalized (func : FuncDecl) (s : String)
    (optional : Bool) (d : DecoratedMiddleware)
    (h : face_middleware func (.ofString s) optional = .ok d) :
    d.face_provides = [s] := by
  simp only [face_middleware, normalizeProvides] at h
  cases hc : check_middleware func [s] with
  | error e =>
    rw [hc] at h
    exact absurd h (by simp)
  | ok u =>
    rw [hc] at h
    have hd : DecoratedMiddleware.mk func true [s] optional = d := by
      simpa using h
    rw [← hd]

/-- Witness for C10 at a valid declaration decorated with
`provides='start_time'`. -/
theorem c10_witness : decoratedSample.face_provides = ["start_time"] :=
  c10_string_provides_normalized funcOk "start_time" false decoratedSample rfl
